import Mathlib

/-!
Verification of the language-option validation, the `min_search_length`
option, and the language support-file selection of `mkdocs-fastsearch`
(`src/mkdocs_fastsearch/__init__.py`), as a shallow embedding in Lean 4.

Language codes are modelled as lists of characters (Python `str` values).
The set of `lunr.{code}.js` support files shipped on disk is not part of
the translated sources, so every definition takes it as a boolean
parameter `avail` (the embedding of `os.path.isfile` on the
`lunr-language` directory).
-/

/-- Characters of a string literal, the representation used for Python strings. -/
def strL (s : String) : List Char := s.data

/-- The code "en", which the validator treats specially. -/
def enL : List Char := strL "en"

/-- ASCII lowercasing of one character, the embedding of Python `str.lower`
on the ASCII range in which language codes live. -/
def lowerChar (c : Char) : Char :=
  if 65 ≤ c.toNat ∧ c.toNat ≤ 90 then Char.ofNat (c.toNat + 32) else c

/-- Embedding of Python `s.lower()` on a code. -/
def pyLower (s : List Char) : List Char := s.map lowerChar

/-- Embedding of Python `s.split(sep)` for a one-character separator:
splits at every occurrence of `sep`, keeping empty pieces, and yields
`[[]]` on the empty string. -/
def pySplit (sep : Char) : List Char → List (List Char)
  | [] => [[]]
  | c :: rest =>
    let parts := pySplit sep rest
    if c = sep then [] :: parts
    else (c :: parts.headD []) :: parts.tail

/-- The fixed fallback table `{'uk': 'ru'}` of `get_lunr_supported_lang`,
read through `dict.get(k, k)`. -/
def fallback (s : List Char) : List Char :=
  if s = strL "uk" then strL "ru" else s

/-- The loop of `LangOption.get_lunr_supported_lang`: try each part in
order; lowercase it, apply the fallback table, and return the first
result whose support file exists. -/
def resolveParts (avail : List Char → Bool) : List (List Char) → Option (List Char)
  | [] => none
  | p :: ps =>
    let q := fallback (pyLower p)
    if avail q then some q else resolveParts avail ps

/-- Embedding of `LangOption.get_lunr_supported_lang`: split the code on
`'_'` and return the first lowercased, fallback-mapped part whose
`lunr.{part}.js` file exists (`avail part = true`); `none` when no part
qualifies (the Python function falls off the end and returns `None`). -/
def get_lunr_supported_lang (avail : List Char → Bool) (lang : List Char) : Option (List Char) :=
  resolveParts avail (pySplit '_' lang)

/-- The failure branch of `LangOption.run_validation`:
`value.remove(lang)` followed by appending `'en'` when absent. -/
def dropLang (value : List (List Char)) (lang : List Char) : List (List Char) :=
  let v := value.erase lang
  if enL ∈ v then v else v ++ [enL]

/-- One iteration of the loop body of `LangOption.run_validation` for the
snapshot element `lang`, acting on the current list `value`.  Python's
`if not lang_detected` is falsy both for `None` and for the empty
string, hence the extra `d = []` case. -/
def validateStep (avail : List Char → Bool) (value : List (List Char)) (lang : List Char) :
    List (List Char) :=
  if lang = enL then value
  else
    match get_lunr_supported_lang avail lang with
    | none => dropLang value lang
    | some d =>
      if d = [] then dropLang value lang
      else if d ≠ lang then value.erase lang ++ [d]
      else value

/-- The loop of `LangOption.run_validation` on a list value: Python
iterates over the snapshot `list(value)` while mutating `value`, i.e. a
left fold over the original list whose accumulator starts at the
original list. -/
def run_validation_list (avail : List Char → Bool) (value : List (List Char)) :
    List (List Char) :=
  value.foldl (validateStep avail) value

/-- The dynamically-typed values a config option can receive; `intVal`
and `noneVal` stand for the non-`str`, non-`list` Python values. -/
inductive ConfigValue where
  | str (s : List Char)
  | list (l : List (List Char))
  | intVal (n : Int)
  | noneVal
deriving DecidableEq

/-- Embedding of `LangOption.run_validation`: a `str` is first wrapped
into a one-element list; anything that is then not a list raises
`ValidationError('Expected a list of language codes.')`. -/
def run_validation (avail : List Char → Bool) : ConfigValue → Except (List Char) (List (List Char))
  | .str s => .ok (run_validation_list avail [s])
  | .list l => .ok (run_validation_list avail l)
  | .intVal _ => .error (strL "Expected a list of language codes.")
  | .noneVal => .error (strL "Expected a list of language codes.")

/-- Embedding of the validator of `min_search_length = c.Type(int, default=3)`
(line 51): mkdocs' `Type(int)` option accepts exactly the values that are
Python `int`s — it performs an `isinstance` check and nothing else. -/
def min_search_length_validation : ConfigValue → Except (List Char) Int
  | .intVal n => .ok n
  | _ => .error (strL "Expected type: int")

/-- Embedding of the support-file selection of `SearchPlugin.on_post_build`
(lines 90–99): the list `files` built from the validated language list. -/
def on_post_build_files (langs : List (List Char)) : List (List Char) :=
  let files : List (List Char) := []
  let files := if langs.length > 1 ∨ enL ∉ langs then files ++ [strL "lunr.stemmer.support.js"] else files
  let files := if langs.length > 1 then files ++ [strL "lunr.multi.js"] else files
  let files := if strL "ja" ∈ langs ∨ strL "jp" ∈ langs then files ++ [strL "tinyseg.js"] else files
  files ++ (langs.filter (fun l => decide (l ≠ enL))).map (fun l => strL "lunr." ++ l ++ strL ".js")

/-- Modelled from the spec: the set of `lunr.{code}.js` files shipped in
the `lunr-language` directory is not under `src/`; following the spec's
examples (`de`, `jp` supported, `zzz` unknown, `uk` falling back to
`ru`), this concrete instance marks `de`, `ja`, `jp`, `ru`, `fr`, `es`
as present. -/
def demoAvail (l : List Char) : Bool :=
  [strL "de", strL "ja", strL "jp", strL "ru", strL "fr", strL "es"].contains l

/-- An availability set in which only `lunr.de.js` exists. -/
def deOnly (l : List Char) : Bool := l == strL "de"

/-- Modelled from the spec (claim C2's reading): resolution that
"considers only the portion of the code before the script/region
separator `'_'`", lowercased and fallback-mapped before the support
check. -/
def resolveSpecC2 (avail : List Char → Bool) (lang : List Char) : Option (List Char) :=
  let p := (pySplit '_' lang).headD []
  let q := fallback (pyLower p)
  if avail q then some q else none

lemma toNat_ofNat_lt (n : Nat) (h : n < 55296) : (Char.ofNat n).toNat = n := by
  unfold Char.ofNat
  rw [dif_pos (Or.inl h)]
  rfl

lemma lowerChar_toNat (c : Char) (h : 65 ≤ c.toNat ∧ c.toNat ≤ 90) :
    (lowerChar c).toNat = c.toNat + 32 := by
  rw [lowerChar, if_pos h, toNat_ofNat_lt]
  omega

lemma lowerChar_eq_self (c : Char) (h : ¬(65 ≤ c.toNat ∧ c.toNat ≤ 90)) : lowerChar c = c := by
  rw [lowerChar, if_neg h]

lemma lowerChar_idem (c : Char) : lowerChar (lowerChar c) = lowerChar c := by
  by_cases h : 65 ≤ c.toNat ∧ c.toNat ≤ 90
  · have h2 := lowerChar_toNat c h
    exact lowerChar_eq_self _ (by omega)
  · rw [lowerChar_eq_self c h]
    exact lowerChar_eq_self c h

lemma lowerChar_underscore (c : Char) (h : lowerChar c = '_') : c = '_' := by
  by_cases hc : 65 ≤ c.toNat ∧ c.toNat ≤ 90
  · exfalso
    have h2 := lowerChar_toNat c hc
    rw [h] at h2
    have h3 : ('_' : Char).toNat = 95 := rfl
    omega
  · rwa [lowerChar_eq_self c hc] at h

lemma pyLower_idem (s : List Char) : pyLower (pyLower s) = pyLower s := by
  induction s with
  | nil => rfl
  | cons c rest ih =>
    simp only [pyLower, List.map_cons] at ih ⊢
    rw [lowerChar_idem, ih]

lemma underscore_not_mem_pyLower (s : List Char) (h : '_' ∉ s) : '_' ∉ pyLower s := by
  intro hmem
  simp only [pyLower, List.mem_map] at hmem
  obtain ⟨c, hc, hl⟩ := hmem
  exact h ((lowerChar_underscore c hl) ▸ hc)

lemma pySplit_ne_nil (sep : Char) (s : List Char) : pySplit sep s ≠ [] := by
  cases s with
  | nil => simp [pySplit]
  | cons c rest =>
    simp only [pySplit]
    split <;> simp

lemma not_mem_of_mem_pySplit (sep : Char) (s : List Char) (p : List Char)
    (hp : p ∈ pySplit sep s) : sep ∉ p := by
  induction s generalizing p with
  | nil =>
    simp only [pySplit, List.mem_singleton] at hp
    simp [hp]
  | cons c rest ih =>
    simp only [pySplit] at hp
    by_cases hc : c = sep
    · rw [if_pos hc] at hp
      rcases List.mem_cons.mp hp with h | h
      · simp [h]
      · exact ih p h
    · rw [if_neg hc] at hp
      rcases List.mem_cons.mp hp with h | h
      · subst h
        intro hmem
        rcases List.mem_cons.mp hmem with h | h
        · exact hc h.symm
        · obtain ⟨q, qs, hq⟩ := List.exists_cons_of_ne_nil (pySplit_ne_nil sep rest)
          rw [hq] at h
          exact ih q (by rw [hq]; exact List.mem_cons_self q qs) (by simpa using h)
      · exact ih p (List.mem_of_mem_tail h)

lemma pySplit_of_not_mem (sep : Char) (s : List Char) (h : sep ∉ s) : pySplit sep s = [s] := by
  induction s with
  | nil => rfl
  | cons c rest ih =>
    have hc : c ≠ sep := fun hh => h (hh ▸ List.mem_cons_self c rest)
    have hrest : sep ∉ rest := fun hh => h (List.mem_cons_of_mem c hh)
    simp only [pySplit, if_neg hc, ih hrest]
    rfl

lemma fallback_fixpoint (s : List Char) : fallback (fallback s) = fallback s := by
  by_cases h : s = strL "uk"
  · subst h
    decide
  · simp [fallback, h]

lemma underscore_not_mem_fallback (s : List Char) (h : '_' ∉ s) : '_' ∉ fallback s := by
  by_cases hs : s = strL "uk"
  · subst hs
    decide
  · simpa [fallback, hs] using h

lemma pyLower_fallback_pyLower (p : List Char) :
    pyLower (fallback (pyLower p)) = fallback (pyLower p) := by
  by_cases h : pyLower p = strL "uk"
  · rw [h]
    decide
  · simp [fallback, h, pyLower_idem]

lemma resolveParts_eq_some (avail : List Char → Bool) (parts : List (List Char))
    (d : List Char) (h : resolveParts avail parts = some d) :
    avail d = true ∧ ∃ p ∈ parts, d = fallback (pyLower p) := by
  induction parts with
  | nil => simp [resolveParts] at h
  | cons p ps ih =>
    simp only [resolveParts] at h
    by_cases hq : avail (fallback (pyLower p)) = true
    · rw [if_pos hq] at h
      obtain rfl := Option.some.inj h
      exact ⟨hq, p, List.mem_cons_self p ps, rfl⟩
    · rw [if_neg hq] at h
      obtain ⟨ha, q, hqmem, hqeq⟩ := ih h
      exact ⟨ha, q, List.mem_cons_of_mem p hqmem, hqeq⟩

lemma get_lunr_fixpoint (avail : List Char → Bool) (lang d : List Char)
    (h : get_lunr_supported_lang avail lang = some d) :
    get_lunr_supported_lang avail d = some d := by
  obtain ⟨hav, p, hp, hd⟩ := resolveParts_eq_some avail _ d h
  have h1 : '_' ∉ p := not_mem_of_mem_pySplit '_' lang p hp
  have h2 : '_' ∉ d := hd ▸ underscore_not_mem_fallback _ (underscore_not_mem_pyLower p h1)
  rw [get_lunr_supported_lang, pySplit_of_not_mem _ _ h2]
  have h3 : fallback (pyLower d) = d := by
    rw [hd, pyLower_fallback_pyLower, fallback_fixpoint]
  simp only [resolveParts, h3, hav, if_pos]

lemma get_lunr_en (avail : List Char → Bool) :
    get_lunr_supported_lang avail enL = if avail enL then some enL else none := by
  rw [get_lunr_supported_lang]
  have h1 : pySplit '_' enL = [enL] := by decide
  have h2 : fallback (pyLower enL) = enL := by decide
  rw [h1]
  simp only [resolveParts, h2]

/-- A code the validation loop keeps by self-resolution: it resolves to
itself and is truthy (non-empty). -/
def keeps (avail : List Char → Bool) (c : List Char) : Prop :=
  get_lunr_supported_lang avail c = some c ∧ c ≠ []

/-- The codes the validation loop leaves alone: `en` and the
self-resolving ones. -/
def stable (avail : List Char → Bool) (c : List Char) : Prop :=
  c = enL ∨ keeps avail c

lemma validateStep_en (avail : List Char → Bool) (v : List (List Char)) :
    validateStep avail v enL = v := by
  simp [validateStep]

lemma validateStep_keeps (avail : List Char → Bool) (v : List (List Char)) (c : List Char)
    (h : keeps avail c) : validateStep avail v c = v := by
  by_cases hen : c = enL
  · simp [validateStep, hen]
  · obtain ⟨hres, hne⟩ := h
    simp [validateStep, hen, hres, hne]

lemma validateStep_stable (avail : List Char → Bool) (v : List (List Char)) (c : List Char)
    (h : stable avail c) : validateStep avail v c = v := by
  rcases h with h | h
  · rw [h]
    exact validateStep_en avail v
  · exact validateStep_keeps avail v c h

lemma validateStep_cases (avail : List Char → Bool) (v : List (List Char)) (c : List Char)
    (hen : c ≠ enL) (hk : ¬ keeps avail c) :
    validateStep avail v c = dropLang v c ∨
    ∃ d, keeps avail d ∧ d ≠ c ∧ validateStep avail v c = v.erase c ++ [d] := by
  cases hres : get_lunr_supported_lang avail c with
  | none =>
    left
    simp [validateStep, hen, hres]
  | some d =>
    by_cases hd : d = []
    · left
      simp [validateStep, hen, hres, hd]
    · have hdc : d ≠ c := by
        intro h
        exact hk ⟨h ▸ hres, h ▸ hd⟩
      right
      refine ⟨d, ⟨get_lunr_fixpoint avail c d hres, hd⟩, hdc, ?_⟩
      simp [validateStep, hen, hres, hd, hdc]

lemma en_mem_dropLang (v : List (List Char)) (c : List Char) : enL ∈ dropLang v c := by
  simp only [dropLang]
  split
  next h => exact h
  next h => exact List.mem_append_right _ (List.mem_singleton.mpr rfl)

lemma count_validateStep_of_ne (avail : List Char → Bool) (v : List (List Char))
    (x c : List Char) (hxc : x ≠ c) (hxen : x ≠ enL) (hxk : ¬ keeps avail x) :
    List.count x (validateStep avail v c) = List.count x v := by
  by_cases hcs : stable avail c
  · rw [validateStep_stable avail v c hcs]
  · have hen : c ≠ enL := fun h => hcs (Or.inl h)
    have hk : ¬ keeps avail c := fun h => hcs (Or.inr h)
    rcases validateStep_cases avail v c hen hk with h | ⟨d, hdk, hdc, h⟩
    · rw [h]
      simp only [dropLang]
      split
      · exact List.count_erase_of_ne hxc v
      · rw [List.count_append, List.count_erase_of_ne hxc v]
        simp [List.count_cons, hxen]
    · have hdx : d ≠ x := fun hh => hxk (hh ▸ hdk)
      rw [h, List.count_append, List.count_erase_of_ne hxc v]
      simp [List.count_cons, Ne.symm hdx]

lemma count_validateStep_self (avail : List Char → Bool) (v : List (List Char))
    (x : List Char) (hxen : x ≠ enL) (hxk : ¬ keeps avail x) :
    List.count x (validateStep avail v x) = List.count x v - 1 := by
  rcases validateStep_cases avail v x hxen hxk with h | ⟨d, hdk, hdx, h⟩
  · rw [h]
    simp only [dropLang]
    split
    · exact List.count_erase_self x v
    · rw [List.count_append, List.count_erase_self]
      simp [List.count_cons, hxen]
  · rw [h, List.count_append, List.count_erase_self]
    simp [List.count_cons, Ne.symm hdx]

lemma stable_foldl (avail : List Char → Bool) :
    ∀ (snap v : List (List Char)),
      (∀ x, ¬ stable avail x → List.count x v ≤ List.count x snap) →
      ∀ x ∈ List.foldl (validateStep avail) v snap, stable avail x := by
  intro snap
  induction snap with
  | nil =>
    intro v hv x hx
    simp only [List.foldl_nil] at hx
    by_contra hns
    have h0 : List.count x v = 0 := Nat.le_zero.mp (by simpa using hv x hns)
    exact List.count_eq_zero.mp h0 hx
  | cons c cs ih =>
    intro v hv x hx
    simp only [List.foldl_cons] at hx
    refine ih (validateStep avail v c) ?_ x hx
    intro y hy
    have hyen : y ≠ enL := fun h => hy (Or.inl h)
    have hyk : ¬ keeps avail y := fun h => hy (Or.inr h)
    by_cases hyc : y = c
    · subst hyc
      rw [count_validateStep_self avail v y hyen hyk]
      have h1 := hv y hy
      have h2 : List.count y (y :: cs) = List.count y cs + 1 := by
        rw [List.count_cons]
        simp
      omega
    · rw [count_validateStep_of_ne avail v y c hyc hyen hyk]
      have h1 := hv y hy
      have h2 : List.count y (c :: cs) = List.count y cs := by
        rw [List.count_cons]
        simp [hyc, Ne.symm hyc]
      omega

lemma stable_of_mem_run_validation (avail : List Char → Bool) (v : List (List Char))
    (x : List Char) (hx : x ∈ run_validation_list avail v) : stable avail x :=
  stable_foldl avail v v (fun _ _ => le_refl _) x hx

lemma not_mem_run_validation (avail : List Char → Bool) (v : List (List Char))
    (x : List Char) (hxen : x ≠ enL) (hxk : ¬ keeps avail x) :
    x ∉ run_validation_list avail v := by
  intro hx
  rcases stable_of_mem_run_validation avail v x hx with h | h
  · exact hxen h
  · exact hxk h

lemma mem_validateStep_of_stable (avail : List Char → Bool) (v : List (List Char))
    (c x : List Char) (hx : stable avail x) (hm : x ∈ v) : x ∈ validateStep avail v c := by
  by_cases hxc : x = c
  · subst hxc
    rw [validateStep_stable avail v x hx]
    exact hm
  · by_cases hcs : stable avail c
    · rw [validateStep_stable avail v c hcs]
      exact hm
    · have hen : c ≠ enL := fun h => hcs (Or.inl h)
      have hk : ¬ keeps avail c := fun h => hcs (Or.inr h)
      rcases validateStep_cases avail v c hen hk with h | ⟨d, hdk, hdc, h⟩
      · rw [h]
        simp only [dropLang]
        split
        · exact (List.mem_erase_of_ne hxc).mpr hm
        · exact List.mem_append_left _ ((List.mem_erase_of_ne hxc).mpr hm)
      · rw [h]
        exact List.mem_append_left _ ((List.mem_erase_of_ne hxc).mpr hm)

lemma mem_foldl_of_stable (avail : List Char → Bool) (x : List Char) (hx : stable avail x) :
    ∀ (snap v : List (List Char)), x ∈ v → x ∈ List.foldl (validateStep avail) v snap := by
  intro snap
  induction snap with
  | nil =>
    intro v hm
    simpa using hm
  | cons c cs ih =>
    intro v hm
    exact ih _ (mem_validateStep_of_stable avail v c x hx hm)

lemma en_mem_fold_of_fail (avail : List Char → Bool) (c : List Char) (hen : c ≠ enL)
    (hres : get_lunr_supported_lang avail c = none) :
    ∀ (snap v : List (List Char)), c ∈ snap →
      enL ∈ List.foldl (validateStep avail) v snap := by
  intro snap
  induction snap with
  | nil =>
    intro v h
    simp at h
  | cons e es ih =>
    intro v hmem
    simp only [List.foldl_cons]
    rcases List.mem_cons.mp hmem with h | h
    · have hstep : validateStep avail v e = dropLang v e := by
        simp [validateStep, ← h, hen, hres]
      rw [hstep]
      exact mem_foldl_of_stable avail enL (Or.inl rfl) es _ (en_mem_dropLang v e)
    · exact ih _ h

lemma avail_of_keeps (avail : List Char → Bool) (x : List Char) (h : keeps avail x) :
    avail x = true :=
  (resolveParts_eq_some avail _ x h.1).1

lemma validateStep_ne_nil (avail : List Char → Bool) (v : List (List Char)) (c : List Char)
    (hv : v ≠ []) : validateStep avail v c ≠ [] := by
  by_cases hcs : stable avail c
  · rw [validateStep_stable avail v c hcs]
    exact hv
  · have hen : c ≠ enL := fun h => hcs (Or.inl h)
    have hk : ¬ keeps avail c := fun h => hcs (Or.inr h)
    rcases validateStep_cases avail v c hen hk with h | ⟨d, _, _, h⟩
    · rw [h]
      simp only [dropLang]
      split
      next hh => exact List.ne_nil_of_mem hh
      next => simp
    · rw [h]
      simp

lemma foldl_ne_nil (avail : List Char → Bool) :
    ∀ (snap v : List (List Char)), v ≠ [] →
      List.foldl (validateStep avail) v snap ≠ [] := by
  intro snap
  induction snap with
  | nil =>
    intro v hv
    simpa using hv
  | cons c cs ih =>
    intro v hv
    simp only [List.foldl_cons]
    exact ih _ (validateStep_ne_nil avail v c hv)

lemma foldl_id_of_stable (avail : List Char → Bool) :
    ∀ (snap v : List (List Char)), (∀ c ∈ snap, stable avail c) →
      List.foldl (validateStep avail) v snap = v := by
  intro snap
  induction snap with
  | nil =>
    intro v _
    rfl
  | cons c cs ih =>
    intro v h
    simp only [List.foldl_cons]
    rw [validateStep_stable avail v c (h c (List.mem_cons_self c cs))]
    exact ih v (fun e he => h e (List.mem_cons_of_mem c he))

lemma get_lunr_en_ne_other (avail : List Char → Bool) (d : List Char) (hne : d ≠ enL)
    (h : get_lunr_supported_lang avail enL = some d) : False := by
  rw [get_lunr_en avail] at h
  by_cases ha : avail enL = true
  · rw [if_pos ha] at h
    exact hne (Option.some.inj h).symm
  · rw [if_neg ha] at h
    exact Option.noConfusion h

lemma mem_run_validation_of_subst (avail : List Char → Bool) (v : List (List Char))
    (lang d : List Char) (hmem : lang ∈ v)
    (hres : get_lunr_supported_lang avail lang = some d)
    (hd : d ≠ []) (hne : d ≠ lang) : d ∈ run_validation_list avail v := by
  have hlen : lang ≠ enL := by
    intro h
    subst h
    exact get_lunr_en_ne_other avail d (fun hh => hne (hh ▸ rfl)) hres
  obtain ⟨s, t, rfl⟩ := List.append_of_mem hmem
  rw [run_validation_list, List.foldl_append]
  simp only [List.foldl_cons]
  have hstep : validateStep avail (List.foldl (validateStep avail) (s ++ lang :: t) s) lang =
      (List.foldl (validateStep avail) (s ++ lang :: t) s).erase lang ++ [d] := by
    simp [validateStep, hlen, hres, hd, hne]
  rw [hstep]
  exact mem_foldl_of_stable avail d (Or.inr ⟨get_lunr_fixpoint avail lang d hres, hd⟩) t _
    (List.mem_append_right _ (List.mem_singleton.mpr rfl))

lemma count_en_le_validateStep (avail : List Char → Bool) (v : List (List Char))
    (c : List Char) : List.count enL v ≤ List.count enL (validateStep avail v c) := by
  by_cases hcs : stable avail c
  · rw [validateStep_stable avail v c hcs]
  · have hen : c ≠ enL := fun h => hcs (Or.inl h)
    have hk : ¬ keeps avail c := fun h => hcs (Or.inr h)
    rcases validateStep_cases avail v c hen hk with h | ⟨d, hdk, hdc, h⟩
    · rw [h]
      simp only [dropLang]
      split
      · rw [List.count_erase_of_ne (Ne.symm hen) v]
      · rw [List.count_append, List.count_erase_of_ne (Ne.symm hen) v]
        exact Nat.le_add_right _ _
    · rw [h, List.count_append, List.count_erase_of_ne (Ne.symm hen) v]
      exact Nat.le_add_right _ _

lemma count_en_le_foldl (avail : List Char → Bool) :
    ∀ (snap v : List (List Char)),
      List.count enL v ≤ List.count enL (List.foldl (validateStep avail) v snap) := by
  intro snap
  induction snap with
  | nil =>
    intro v
    simp
  | cons c cs ih =>
    intro v
    simp only [List.foldl_cons]
    exact le_trans (count_en_le_validateStep avail v c) (ih _)

lemma pyLower_cons (c : Char) (s : List Char) : pyLower (c :: s) = lowerChar c :: pyLower s :=
  rfl

lemma pySplit_underscore_pyLower (s : List Char) :
    pySplit '_' (pyLower s) = (pySplit '_' s).map pyLower := by
  induction s with
  | nil => rfl
  | cons c rest ih =>
    obtain ⟨q, qs, hq⟩ := List.exists_cons_of_ne_nil (pySplit_ne_nil '_' rest)
    rw [pyLower_cons]
    simp only [pySplit]
    rw [ih, hq]
    by_cases hc : c = '_'
    · subst hc
      rw [if_pos (show lowerChar '_' = '_' from by decide), if_pos rfl]
      rfl
    · have hlc : lowerChar c ≠ '_' := fun h => hc (lowerChar_underscore c h)
      rw [if_neg hlc, if_neg hc]
      simp [pyLower_cons]

lemma resolveParts_map_pyLower (avail : List Char → Bool) (parts : List (List Char)) :
    resolveParts avail (parts.map pyLower) = resolveParts avail parts := by
  induction parts with
  | nil => rfl
  | cons p ps ih =>
    simp only [List.map_cons, resolveParts]
    rw [show fallback (pyLower (pyLower p)) = fallback (pyLower p) from by rw [pyLower_idem],
      ih]

lemma get_lunr_case_insensitive (avail : List Char → Bool) (lang : List Char) :
    get_lunr_supported_lang avail (pyLower lang) = get_lunr_supported_lang avail lang := by
  rw [get_lunr_supported_lang, get_lunr_supported_lang, pySplit_underscore_pyLower,
    resolveParts_map_pyLower]

lemma resolveParts_eq_some_iff (avail : List Char → Bool) (parts : List (List Char))
    (d : List Char) :
    resolveParts avail parts = some d ↔
      ∃ l1 p l2, parts = l1 ++ p :: l2 ∧
        (∀ q ∈ l1, avail (fallback (pyLower q)) = false) ∧
        d = fallback (pyLower p) ∧ avail d = true := by
  induction parts with
  | nil =>
    constructor
    · intro h
      simp [resolveParts] at h
    · rintro ⟨l1, p, l2, heq, -, -, -⟩
      simp at heq
  | cons r rs ih =>
    by_cases hr : avail (fallback (pyLower r)) = true
    · simp only [resolveParts, if_pos hr]
      constructor
      · intro h
        obtain rfl := Option.some.inj h
        exact ⟨[], r, rs, rfl, by simp, rfl, hr⟩
      · rintro ⟨l1, p, l2, heq, hl1, hd, ha⟩
        cases l1 with
        | nil =>
          simp only [List.nil_append, List.cons.injEq] at heq
          obtain ⟨rfl, rfl⟩ := heq
          rw [hd]
        | cons a l1t =>
          simp only [List.cons_append, List.cons.injEq] at heq
          obtain ⟨rfl, -⟩ := heq
          have hfst := hl1 r (List.mem_cons_self r l1t)
          rw [hfst] at hr
          exact absurd hr (by simp)
    · have hr0 : avail (fallback (pyLower r)) = false := by
        simpa using hr
      simp only [resolveParts, if_neg hr]
      rw [ih]
      constructor
      · rintro ⟨l1, p, l2, heq, hl1, hd, ha⟩
        refine ⟨r :: l1, p, l2, by rw [heq, List.cons_append], ?_, hd, ha⟩
        intro q hq
        rcases List.mem_cons.mp hq with h | h
        · rw [h]
          exact hr0
        · exact hl1 q h
      · rintro ⟨l1, p, l2, heq, hl1, hd, ha⟩
        cases l1 with
        | nil =>
          simp only [List.nil_append, List.cons.injEq] at heq
          obtain ⟨rfl, rfl⟩ := heq
          exact absurd (hd ▸ ha) hr
        | cons a l1t =>
          simp only [List.cons_append, List.cons.injEq] at heq
          obtain ⟨rfl, hrs⟩ := heq
          exact ⟨l1t, p, l2, hrs, fun q hq => hl1 q (List.mem_cons_of_mem _ hq), hd, ha⟩

lemma mem_ite_singleton (p : Prop) [Decidable p] (x a : List Char) :
    (x ∈ if p then [a] else ([] : List (List Char))) ↔ p ∧ x = a := by
  by_cases h : p <;> simp [h]

lemma on_post_build_files_eq (langs : List (List Char)) :
    on_post_build_files langs =
      (if langs.length > 1 ∨ enL ∉ langs then [strL "lunr.stemmer.support.js"] else []) ++
      (if langs.length > 1 then [strL "lunr.multi.js"] else []) ++
      (if strL "ja" ∈ langs ∨ strL "jp" ∈ langs then [strL "tinyseg.js"] else []) ++
      (langs.filter (fun l => decide (l ≠ enL))).map (fun l => strL "lunr." ++ l ++ strL ".js") := by
  simp only [on_post_build_files]
  split <;> split <;> split <;> simp

lemma lunr_file_inj (l m : List Char)
    (h : strL "lunr." ++ l ++ strL ".js" = strL "lunr." ++ m ++ strL ".js") : l = m :=
  List.append_cancel_left (List.append_cancel_right h)

lemma lunr_file_ne_tinyseg (l : List Char) :
    strL "lunr." ++ l ++ strL ".js" ≠ strL "tinyseg.js" := by
  intro h
  rw [show strL "lunr." = ['l', 'u', 'n', 'r', '.'] from rfl] at h
  simp [strL] at h

lemma mem_on_post_build_files (langs : List (List Char)) (x : List Char) :
    x ∈ on_post_build_files langs ↔
      (((langs.length > 1 ∨ enL ∉ langs) ∧ x = strL "lunr.stemmer.support.js") ∨
       (langs.length > 1 ∧ x = strL "lunr.multi.js") ∨
       ((strL "ja" ∈ langs ∨ strL "jp" ∈ langs) ∧ x = strL "tinyseg.js") ∨
       (∃ l, (l ∈ langs ∧ l ≠ enL) ∧ strL "lunr." ++ l ++ strL ".js" = x)) := by
  rw [on_post_build_files_eq]
  simp only [List.append_assoc, List.mem_append, mem_ite_singleton, List.mem_map,
    List.mem_filter, decide_eq_true_eq]

example : run_validation_list demoAvail [strL "de", strL "zzz", strL "jp"] =
    [strL "de", strL "jp", enL] := by decide

example : run_validation_list demoAvail [strL "uk", strL "ru"] = [strL "ru", strL "ru"] := by
  decide

example : get_lunr_supported_lang deOnly (strL "xx_de") = some (strL "de") := by decide

example : resolveSpecC2 deOnly (strL "xx_de") = none := by decide

example : run_validation demoAvail (.list []) = .ok [] := rfl

example : min_search_length_validation (.intVal (-1)) = .ok (-1) := rfl

/-- C1: a configured code other than `en` whose resolution fails is
dropped from the validated list and `en` is guaranteed to be present in
the final list; concretely, validating `["de", "zzz", "jp"]` with `zzz`
unknown yields `["de", "jp", "en"]` — containing `de`, `jp` and `en`,
and never `zzz`. -/
theorem run_validation_drops_failed_and_adds_en :
    (∀ (avail : List Char → Bool) (v : List (List Char)) (c : List Char),
      c ≠ enL → get_lunr_supported_lang avail c = none →
        c ∉ run_validation_list avail v ∧
        (c ∈ v → enL ∈ run_validation_list avail v)) ∧
    run_validation_list demoAvail [strL "de", strL "zzz", strL "jp"] =
      [strL "de", strL "jp", enL] := by
  constructor
  · intro avail v c hen hres
    constructor
    · exact not_mem_run_validation avail v c hen
        (fun hk => Option.noConfusion (hres ▸ hk.1))
    · intro hmem
      exact en_mem_fold_of_fail avail c hen hres v v hmem
  · decide

/-- Witness for C1 at the concrete input of the claim: `zzz` is dropped
and `en` is present. -/
theorem run_validation_drops_failed_and_adds_en_witness :
    strL "zzz" ∉ run_validation_list demoAvail [strL "de", strL "zzz", strL "jp"] ∧
    (strL "zzz" ∈ [strL "de", strL "zzz", strL "jp"] →
      enL ∈ run_validation_list demoAvail [strL "de", strL "zzz", strL "jp"]) :=
  run_validation_drops_failed_and_adds_en.1 demoAvail
    [strL "de", strL "zzz", strL "jp"] (strL "zzz") (by decide) (by decide)

/-- C2 counterexample: with only `lunr.de.js` available, the code
`xx_de` resolves to `de` although its portion before the separator
(`xx`) fails resolution — the code inspects parts after the first
separator, so resolution does not consider only the portion before
`'_'` as the claim states (`resolveSpecC2` is the claim's reading). -/
theorem get_lunr_beyond_first_part_counterexample :
    get_lunr_supported_lang deOnly (strL "xx_de") = some (strL "de") ∧
    resolveSpecC2 deOnly (strL "xx_de") = none := by
  constructor
  · decide
  · decide

/-- C2 (amended): resolution of a code is case-insensitive (lowercasing
the code never changes the result), and it splits the code on `'_'` and
examines every portion in order, returning the first portion that —
after lowercasing and applying the fallback table — has a support file. -/
theorem get_lunr_first_supported_part :
    (∀ (avail : List Char → Bool) (lang : List Char),
      get_lunr_supported_lang avail (pyLower lang) = get_lunr_supported_lang avail lang) ∧
    (∀ (avail : List Char → Bool) (lang d : List Char),
      get_lunr_supported_lang avail lang = some d ↔
        ∃ l1 p l2, pySplit '_' lang = l1 ++ p :: l2 ∧
          (∀ q ∈ l1, avail (fallback (pyLower q)) = false) ∧
          d = fallback (pyLower p) ∧ avail d = true) :=
  ⟨get_lunr_case_insensitive, fun avail _ d => resolveParts_eq_some_iff avail _ d⟩

/-- Witness for C2's amended theorem at a concrete input: resolving the
upper-case code `DE` equals resolving its lowercased form. -/
theorem get_lunr_first_supported_part_witness :
    get_lunr_supported_lang deOnly (pyLower (strL "DE")) =
      get_lunr_supported_lang deOnly (strL "DE") :=
  get_lunr_first_supported_part.1 deOnly (strL "DE")

/-- C3 counterexample: the empty list is accepted by `run_validation`
and validates to the empty list, so the validated language list is not
always non-empty. -/
theorem run_validation_empty_counterexample :
    run_validation demoAvail (ConfigValue.list []) = Except.ok [] := rfl

/-- C3 (amended): for every accepted non-empty language list the
validated list is non-empty and each of its codes is `en` or a code
whose support file exists; the empty list, however, validates to the
empty list. -/
theorem run_validation_nonempty_of_nonempty (avail : List Char → Bool)
    (v : List (List Char)) (hv : v ≠ []) :
    run_validation_list avail v ≠ [] ∧
    ∀ x ∈ run_validation_list avail v, x = enL ∨ avail x = true := by
  refine ⟨foldl_ne_nil avail v v hv, ?_⟩
  intro x hx
  rcases stable_of_mem_run_validation avail v x hx with h | h
  · exact Or.inl h
  · exact Or.inr (avail_of_keeps avail x h)

/-- Witness for C3's amended theorem: validating the non-empty list
`["zzz"]` yields a non-empty list of supported-or-`en` codes. -/
theorem run_validation_nonempty_of_nonempty_witness :
    run_validation_list demoAvail [strL "zzz"] ≠ [] ∧
    ∀ x ∈ run_validation_list demoAvail [strL "zzz"], x = enL ∨ demoAvail x = true :=
  run_validation_nonempty_of_nonempty demoAvail [strL "zzz"] (by decide)

/-- C4: when a code in the list resolves to a different (truthy) code,
validation removes the original code, adds the resolved code to the
list, and completes without a configuration error. -/
theorem run_validation_substitutes_resolved (avail : List Char → Bool)
    (v : List (List Char)) (lang d : List Char) (hmem : lang ∈ v)
    (hres : get_lunr_supported_lang avail lang = some d) (hd : d ≠ []) (hne : d ≠ lang) :
    run_validation avail (ConfigValue.list v) = Except.ok (run_validation_list avail v) ∧
    d ∈ run_validation_list avail v ∧ lang ∉ run_validation_list avail v := by
  refine ⟨rfl, mem_run_validation_of_subst avail v lang d hmem hres hd hne, ?_⟩
  have hlen : lang ≠ enL := by
    intro h
    exact get_lunr_en_ne_other avail d (fun hh => hne (hh.trans h.symm)) (h ▸ hres)
  exact not_mem_run_validation avail v lang hlen
    (fun hk => hne (Option.some.inj (hres.symm.trans hk.1)))

/-- Witness for C4: validating `["uk"]` replaces `uk` by its fallback
`ru` without error. -/
theorem run_validation_substitutes_resolved_witness :
    run_validation demoAvail (ConfigValue.list [strL "uk"]) =
      Except.ok (run_validation_list demoAvail [strL "uk"]) ∧
    strL "ru" ∈ run_validation_list demoAvail [strL "uk"] ∧
    strL "uk" ∉ run_validation_list demoAvail [strL "uk"] :=
  run_validation_substitutes_resolved demoAvail [strL "uk"] (strL "uk") (strL "ru")
    (by decide) (by decide) (by decide) (by decide)

/-- C5: the `lang` option accepts a single string code, validating it
exactly like the one-element list of that code, and every value that is
neither a string nor a list is rejected with a validation error. -/
theorem run_validation_str_normalization_and_type_error :
    (∀ (avail : List Char → Bool) (s : List Char),
      run_validation avail (ConfigValue.str s) = run_validation avail (ConfigValue.list [s])) ∧
    (∀ (avail : List Char → Bool) (cv : ConfigValue),
      (∀ s, cv ≠ ConfigValue.str s) → (∀ l, cv ≠ ConfigValue.list l) →
      run_validation avail cv = Except.error (strL "Expected a list of language codes.")) := by
  constructor
  · intro avail s
    rfl
  · intro avail cv hs hl
    cases cv with
    | str s => exact absurd rfl (hs s)
    | list l => exact absurd rfl (hl l)
    | intVal n => rfl
    | noneVal => rfl

/-- Witness for C5: an integer-valued `lang` is rejected with the
validation error. -/
theorem run_validation_str_normalization_and_type_error_witness :
    run_validation demoAvail (ConfigValue.intVal 3) =
      Except.error (strL "Expected a list of language codes.") :=
  run_validation_str_normalization_and_type_error.2 demoAvail (ConfigValue.intVal 3)
    (fun _ h => ConfigValue.noConfusion h) (fun _ h => ConfigValue.noConfusion h)

/-- C6 counterexample: the `min_search_length` validator accepts the
negative integer `-1` — mkdocs' `Type(int)` checks only that the value
is an `int` — so values that are integers but negative are not
rejected, contrary to the claim. -/
theorem min_search_length_accepts_negative :
    min_search_length_validation (ConfigValue.intVal (-1)) = Except.ok (-1) := rfl

/-- C6 (amended): every `min_search_length` value that is not an integer
is rejected at validation time with a configuration error, and every
integer value — negative ones included — is accepted. -/
theorem min_search_length_rejects_non_int :
    (∀ cv : ConfigValue, (∀ n, cv ≠ ConfigValue.intVal n) →
      min_search_length_validation cv = Except.error (strL "Expected type: int")) ∧
    (∀ n : Int, min_search_length_validation (ConfigValue.intVal n) = Except.ok n) := by
  constructor
  · intro cv h
    cases cv with
    | str s => rfl
    | list l => rfl
    | intVal n => exact absurd rfl (h n)
    | noneVal => rfl
  · intro n
    rfl

/-- Witness for C6's amended theorem: a `None`-valued
`min_search_length` is rejected. -/
theorem min_search_length_rejects_non_int_witness :
    min_search_length_validation ConfigValue.noneVal =
      Except.error (strL "Expected type: int") :=
  min_search_length_rejects_non_int.1 ConfigValue.noneVal
    (fun _ h => ConfigValue.noConfusion h)

/-- C7: the validated list can contain duplicates: validating
`["uk", "ru"]` (with `ru` supported) rewrites `uk` to its fallback
`ru`, which is appended even though `ru` was already requested,
producing `["ru", "ru"]`. -/
theorem run_validation_duplicates :
    run_validation_list demoAvail [strL "uk", strL "ru"] = [strL "ru", strL "ru"] ∧
    ¬ (run_validation_list demoAvail [strL "uk", strL "ru"]).Nodup := by
  constructor
  · decide
  · decide

/-- C8: every occurrence of `en` in the configured list survives
validation (its count never decreases), and the loop body returns the
list unchanged on `en` for every availability set — no support-file
lookup is involved. -/
theorem run_validation_en_unchanged :
    (∀ (avail : List Char → Bool) (v : List (List Char)), validateStep avail v enL = v) ∧
    (∀ (avail : List Char → Bool) (v : List (List Char)),
      List.count enL v ≤ List.count enL (run_validation_list avail v)) :=
  ⟨validateStep_en, fun avail v => count_en_le_foldl avail v v⟩

/-- C9: the support files selected in `on_post_build` are a function of
the validated language list: the multi-language combiner is selected
exactly when more than one language is configured, the segmentation
helper exactly when `ja` or `jp` is present, the stemmer support
exactly when more than one language is configured or `en` is absent,
and one `lunr.{code}.js` file for each non-`en` code (the hypotheses
rule out the degenerate language codes `multi` and `stemmer.support`,
whose per-language filenames would coincide with the special files). -/
theorem on_post_build_files_selection (langs : List (List Char))
    (h1 : strL "multi" ∉ langs) (h2 : strL "stemmer.support" ∉ langs) :
    (strL "lunr.multi.js" ∈ on_post_build_files langs ↔ langs.length > 1) ∧
    (strL "tinyseg.js" ∈ on_post_build_files langs ↔
      (strL "ja" ∈ langs ∨ strL "jp" ∈ langs)) ∧
    (strL "lunr.stemmer.support.js" ∈ on_post_build_files langs ↔
      (langs.length > 1 ∨ enL ∉ langs)) ∧
    (∀ l ∈ langs, l ≠ enL → strL "lunr." ++ l ++ strL ".js" ∈ on_post_build_files langs) := by
  refine ⟨?_, ?_, ?_, ?_⟩
  · rw [mem_on_post_build_files]
    constructor
    · rintro (⟨-, hx⟩ | ⟨hlen, -⟩ | ⟨-, hx⟩ | ⟨l, ⟨hl, -⟩, hx⟩)
      · exact absurd hx (by decide)
      · exact hlen
      · exact absurd hx (by decide)
      · have : l = strL "multi" := lunr_file_inj l (strL "multi") hx
        exact absurd (this ▸ hl) h1
    · intro h
      exact Or.inr (Or.inl ⟨h, rfl⟩)
  · rw [mem_on_post_build_files]
    constructor
    · rintro (⟨-, hx⟩ | ⟨-, hx⟩ | ⟨hja, -⟩ | ⟨l, -, hx⟩)
      · exact absurd hx (by decide)
      · exact absurd hx (by decide)
      · exact hja
      · exact absurd hx (lunr_file_ne_tinyseg l)
    · intro h
      exact Or.inr (Or.inr (Or.inl ⟨h, rfl⟩))
  · rw [mem_on_post_build_files]
    constructor
    · rintro (⟨hc, -⟩ | ⟨-, hx⟩ | ⟨-, hx⟩ | ⟨l, ⟨hl, -⟩, hx⟩)
      · exact hc
      · exact absurd hx (by decide)
      · exact absurd hx (by decide)
      · have : l = strL "stemmer.support" := lunr_file_inj l (strL "stemmer.support") hx
        exact absurd (this ▸ hl) h2
    · intro h
      exact Or.inl ⟨h, rfl⟩
  · intro l hl hlen
    rw [mem_on_post_build_files]
    exact Or.inr (Or.inr (Or.inr ⟨l, ⟨hl, hlen⟩, rfl⟩))

/-- Witness for C9 at the list `["de", "ja"]`: the combiner, the
segmentation helper, the stemmer support and both per-language files
are selected as stated. -/
theorem on_post_build_files_selection_witness :
    (strL "lunr.multi.js" ∈ on_post_build_files [strL "de", strL "ja"] ↔
      [strL "de", strL "ja"].length > 1) ∧
    (strL "tinyseg.js" ∈ on_post_build_files [strL "de", strL "ja"] ↔
      (strL "ja" ∈ [strL "de", strL "ja"] ∨ strL "jp" ∈ [strL "de", strL "ja"])) ∧
    (strL "lunr.stemmer.support.js" ∈ on_post_build_files [strL "de", strL "ja"] ↔
      ([strL "de", strL "ja"].length > 1 ∨ enL ∉ [strL "de", strL "ja"])) ∧
    (∀ l ∈ [strL "de", strL "ja"], l ≠ enL →
      strL "lunr." ++ l ++ strL ".js" ∈ on_post_build_files [strL "de", strL "ja"]) :=
  on_post_build_files_selection [strL "de", strL "ja"] (by decide) (by decide)

/-- C10: validation is idempotent for a fixed availability set: every
code in a validated list is `en` or resolves to itself, and running the
validation loop on its own output returns that output unchanged. -/
theorem run_validation_idempotent (avail : List Char → Bool) (v : List (List Char)) :
    (∀ x ∈ run_validation_list avail v,
      x = enL ∨ get_lunr_supported_lang avail x = some x) ∧
    run_validation_list avail (run_validation_list avail v) =
      run_validation_list avail v := by
  constructor
  · intro x hx
    rcases stable_of_mem_run_validation avail v x hx with h | h
    · exact Or.inl h
    · exact Or.inr h.1
  · exact foldl_id_of_stable avail (run_validation_list avail v)
      (run_validation_list avail v) (stable_of_mem_run_validation avail v)

/-- Witness for C10: revalidating the output of validating `["uk"]`
leaves it unchanged. -/
theorem run_validation_idempotent_witness :
    run_validation_list demoAvail (run_validation_list demoAvail [strL "uk"]) =
      run_validation_list demoAvail [strL "uk"] :=
  (run_validation_idempotent demoAvail [strL "uk"]).2
